import Mathlib

/-!
Verification of the liblpm Python binding layer
(src/bindings/python/src/liblpm/table.py) together with a model of the
underlying LPM engine, built from the specification of the stride trie
(spec.md §4.1): an 8-bit-stride trie whose terminal stride fans a prefix
out over the slots sharing its top bits, tagging each slot with the
owning prefix length so that longest-wins resolution is decided at
insert time, and whose lookup descends stride by stride remembering the
most specific leaf seen.
-/

namespace Liblpm

/-- One byte of a packed network address. -/
abbrev Byte := Fin 256

/-- The reserved miss sentinel next-hop value
(src/bindings/python/src/liblpm/__init__.py, INVALID_NEXT_HOP). -/
def INVALID_NEXT_HOP : Nat := 0xFFFFFFFF

/-- A stored route entry: packed network bytes, prefix length in bits,
and the associated next hop. -/
structure Entry where
  net : List Byte
  len : Nat
  nh : Nat
deriving DecidableEq, Repr

/-- Whether the first `len` bits of `net` agree with the corresponding
bits of `addr` (both big-endian byte strings), i.e. the prefix
`(net, len)` covers the address `addr`. -/
def bitsMatch : List Byte → Nat → List Byte → Bool
  | [], len, _ => len == 0
  | _ :: _, _, [] => false
  | b :: ns, len, a :: as =>
    if 8 ≤ len then b == a && bitsMatch ns (len - 8) as
    else (b.val >>> (8 - len)) == (a.val >>> (8 - len))

/-- Modelled from the spec: a node of the Stride8 trie (spec.md §3, §4.1;
the C engine sources are not part of the analyzed tree).  Each of the 256
slots may hold a leaf (a next-hop value together with the prefix-length
tag of the prefix that wrote it) and may simultaneously hold a child
node for more specific prefixes. -/
inductive Node where
  | mk (leaf : Byte → Option (Nat × Nat)) (child : Byte → Option Node)

/-- The empty trie node: every slot empty, no children. -/
def Node.empty : Node := Node.mk (fun _ => none) (fun _ => none)

/-- Combine a candidate match of length `l` with a previous best match,
preferring the greater length and the new candidate on ties.  This is
both the slot-overwrite rule of the terminal stride of insert (spec.md
§4.1: a slot's leaf is set if absent or if the insert is at least as
specific) and the merge step of the abstract longest-prefix match. -/
def pick (l n : Nat) : Option (Nat × Nat) → Option (Nat × Nat)
  | none => some (l, n)
  | some p => if p.1 ≤ l then some (l, n) else some p

/-- Modelled from the spec: Stride8 insert (spec.md §4.1).  Walk full
8-bit strides while more than 8 bits of prefix remain, allocating child
nodes lazily; at the terminal stride fan the value out over every slot
sharing the prefix's top `len` bits, overwriting a slot's leaf only when
its current length tag is not more specific (longest wins, re-insert of
the same length overwrites). -/
def insertT : List Byte → Nat → Nat → Node → Node
  | [], _, _, t => t
  | b :: ns, len, nh, Node.mk leaf child =>
    if len ≤ 8 then
      Node.mk
        (fun s =>
          if s.val >>> (8 - len) = b.val >>> (8 - len) then pick len nh (leaf s)
          else leaf s)
        child
    else
      Node.mk leaf
        (fun s =>
          if s = b then
            some (insertT ns (len - 8) nh (Option.getD (child b) Node.empty))
          else child s)

/-- Keep the result found deeper in the trie when there is one (it is
more specific than the current slot's leaf), else fall back to the
leaf remembered at the current slot. -/
def deeperOr (leafv : Option (Nat × Nat)) : Option (Nat × Nat) → Option (Nat × Nat)
  | some p => some (p.1 + 8, p.2)
  | none => leafv

/-- Modelled from the spec: Stride8 lookup (spec.md §4.1).  Descend
stride by stride; at each level remember the slot's leaf as the best
match so far and keep descending while a child exists; the result is
the most specific leaf seen (lengths are counted from the current
node).  Returns `none` when no leaf was ever seen (the miss case). -/
def lookupT : Node → List Byte → Option (Nat × Nat)
  | _, [] => none
  | Node.mk leaf child, a :: as =>
    (child a).elim (leaf a) (fun c => deeperOr (leaf a) (lookupT c as))

/-- Well-formedness of a non-root trie node: every leaf tag lies in
`1..8` and all children are well-formed. -/
inductive Wf1 : Node → Prop where
  | mk (leaf : Byte → Option (Nat × Nat)) (child : Byte → Option Node)
      (hleaf : ∀ s p, leaf s = some p → 1 ≤ p.1 ∧ p.1 ≤ 8)
      (hchild : ∀ s c, child s = some c → Wf1 c) :
      Wf1 (Node.mk leaf child)

/-- Well-formedness of a root trie node: every leaf tag is at most 8
(tag 0 is allowed for a default route) and all children are well-formed
non-root nodes. -/
inductive Wf0 : Node → Prop where
  | mk (leaf : Byte → Option (Nat × Nat)) (child : Byte → Option Node)
      (hleaf : ∀ s p, leaf s = some p → p.1 ≤ 8)
      (hchild : ∀ s c, child s = some c → Wf1 c) :
      Wf0 (Node.mk leaf child)

/-- The abstract longest-prefix-match over a list of stored entries:
the (length, next-hop) of the most specific entry covering `addr`,
later-listed entries losing ties. -/
def bestMatch (addr : List Byte) : List Entry → Option (Nat × Nat)
  | [] => none
  | e :: es =>
    if bitsMatch e.net e.len addr then pick e.len e.nh (bestMatch addr es)
    else bestMatch addr es

/-- Build the trie holding a list of entries, the head entry inserted
last. -/
def build : List Entry → Node
  | [] => Node.empty
  | e :: es => insertT e.net e.len e.nh (build es)

/-- The empty node is well-formed as a non-root node. -/
theorem Wf1_empty : Wf1 Node.empty :=
  Wf1.mk _ _ (fun _ _ h => nomatch h) (fun _ _ h => nomatch h)

/-- The empty node is well-formed as a root node. -/
theorem Wf0_empty : Wf0 Node.empty :=
  Wf0.mk _ _ (fun _ _ h => nomatch h) (fun _ _ h => nomatch h)

/-- Non-root well-formedness is stronger than root well-formedness. -/
theorem Wf1_to_Wf0 {t : Node} (h : Wf1 t) : Wf0 t := by
  cases h with
  | mk leaf child hleaf hchild =>
    exact Wf0.mk leaf child (fun s p hp => (hleaf s p hp).2) hchild

/-- Insert preserves non-root well-formedness when the inserted length
is positive. -/
theorem insertT_Wf1 (net : List Byte) :
    ∀ len nh t, 1 ≤ len → Wf1 t → Wf1 (insertT net len nh t) := by
  induction net with
  | nil =>
    intro len nh t _ h
    simpa [insertT] using h
  | cons b ns ih =>
    intro len nh t hlen hwf
    cases hwf with
    | mk leaf child hleaf hchild =>
      by_cases h8 : len ≤ 8
      · simp only [insertT, if_pos h8]
        refine Wf1.mk _ _ ?_ hchild
        intro s p hp
        by_cases hc : s.val >>> (8 - len) = b.val >>> (8 - len)
        · rw [if_pos hc] at hp
          rcases hq : leaf s with _ | p0
          · simp only [hq, pick] at hp
            cases hp
            exact ⟨hlen, h8⟩
          · simp only [hq, pick] at hp
            by_cases hle : p0.1 ≤ len
            · rw [if_pos hle] at hp
              cases hp
              exact ⟨hlen, h8⟩
            · rw [if_neg hle] at hp
              cases hp
              exact hleaf s p hq
        · rw [if_neg hc] at hp
          exact hleaf s p hp
      · simp only [insertT, if_neg h8]
        refine Wf1.mk _ _ hleaf ?_
        intro s c hc
        by_cases hsb : s = b
        · rw [if_pos hsb] at hc
          cases hc
          refine ih (len - 8) nh _ (by omega) ?_
          rcases hcb : child b with _ | c0
          · simpa [hcb] using Wf1_empty
          · simpa [hcb] using hchild b c0 hcb
        · rw [if_neg hsb] at hc
          exact hchild s c hc

/-- Insert preserves root well-formedness. -/
theorem insertT_Wf0 (net : List Byte) :
    ∀ len nh t, Wf0 t → Wf0 (insertT net len nh t) := by
  cases net with
  | nil =>
    intro len nh t h
    simpa [insertT] using h
  | cons b ns =>
    intro len nh t hwf
    cases hwf with
    | mk leaf child hleaf hchild =>
      by_cases h8 : len ≤ 8
      · simp only [insertT, if_pos h8]
        refine Wf0.mk _ _ ?_ hchild
        intro s p hp
        by_cases hc : s.val >>> (8 - len) = b.val >>> (8 - len)
        · rw [if_pos hc] at hp
          rcases hq : leaf s with _ | p0
          · simp only [hq, pick] at hp
            cases hp
            exact h8
          · simp only [hq, pick] at hp
            by_cases hle : p0.1 ≤ len
            · rw [if_pos hle] at hp
              cases hp
              exact h8
            · rw [if_neg hle] at hp
              cases hp
              exact hleaf s p hq
        · rw [if_neg hc] at hp
          exact hleaf s p hp
      · simp only [insertT, if_neg h8]
        refine Wf0.mk _ _ hleaf ?_
        intro s c hc
        by_cases hsb : s = b
        · rw [if_pos hsb] at hc
          cases hc
          refine insertT_Wf1 ns (len - 8) nh _ (by omega) ?_
          rcases hcb : child b with _ | c0
          · simpa [hcb] using Wf1_empty
          · simpa [hcb] using hchild b c0 hcb
        · rw [if_neg hsb] at hc
          exact hchild s c hc

/-- A built trie is always root-well-formed. -/
theorem build_Wf0 : ∀ es : List Entry, Wf0 (build es)
  | [] => Wf0_empty
  | e :: es => insertT_Wf0 e.net e.len e.nh _ (build_Wf0 es)

/-- In a non-root well-formed trie, every successful lookup reports a
positive length. -/
theorem lookupT_pos :
    ∀ (addr : List Byte) (t : Node), Wf1 t →
      ∀ p, lookupT t addr = some p → 1 ≤ p.1 := by
  intro addr
  induction addr with
  | nil =>
    intro t _ p h
    simp [lookupT] at h
  | cons a as ih =>
    intro t hwf p h
    cases hwf with
    | mk leaf child hleaf hchild =>
      simp only [lookupT] at h
      rcases hc : child a with _ | c
      · simp only [hc, Option.elim_none] at h
        exact (hleaf a p h).1
      · simp only [hc, Option.elim_some] at h
        rcases hl : lookupT c as with _ | q
        · simp only [hl, deeperOr] at h
          exact (hleaf a p h).1
        · simp only [hl, deeperOr] at h
          cases h
          omega

/-- Lookup in the empty node always misses. -/
theorem lookupT_empty : ∀ addr : List Byte, lookupT Node.empty addr = none
  | [] => rfl
  | _ :: _ => rfl

/-- Matching zero bits always succeeds on equal-length byte strings. -/
theorem bitsMatch_zero :
    ∀ (ns as : List Byte), ns.length = as.length → bitsMatch ns 0 as = true := by
  intro ns
  cases ns with
  | nil => intro as _; simp [bitsMatch]
  | cons b bs =>
    intro as hlen
    cases as with
    | nil => simp at hlen
    | cons a as2 =>
      have hb : b.val >>> 8 = 0 := by
        have := b.isLt
        simp [Nat.shiftRight_eq_div_pow]
        omega
      have ha : a.val >>> 8 = 0 := by
        have := a.isLt
        simp [Nat.shiftRight_eq_div_pow]
        omega
      simp [bitsMatch, hb, ha]

/-- For a terminal stride (`len ≤ 8`), prefix coverage is exactly the
slot-covering test on the shared top bits of the first byte. -/
theorem bitsMatch_le8 (b a : Byte) (ns as : List Byte) (len : Nat)
    (h8 : len ≤ 8) (hlen : ns.length = as.length) :
    (bitsMatch (b :: ns) len (a :: as) = true) ↔
      a.val >>> (8 - len) = b.val >>> (8 - len) := by
  by_cases hl : 8 ≤ len
  · have h88 : len = 8 := le_antisymm h8 hl
    subst h88
    simp [bitsMatch, bitsMatch_zero ns as hlen]
    constructor
    · intro h
      exact congrArg Fin.val h.symm
    · intro h
      exact Fin.ext h.symm
  · simp only [bitsMatch, if_neg hl, beq_iff_eq]
    exact eq_comm

/-- The central refinement fact about the spec-modelled engine:
inserting a prefix changes the result of a trie lookup exactly by
merging in the new candidate when the prefix covers the address
(longest wins, the new entry winning ties), and not at all otherwise. -/
theorem lookupT_insertT :
    ∀ (net : List Byte) (len nh : Nat) (t : Node) (addr : List Byte),
      net.length = addr.length → 0 < net.length → len ≤ 8 * net.length →
      Wf0 t →
      lookupT (insertT net len nh t) addr =
        if bitsMatch net len addr then pick len nh (lookupT t addr)
        else lookupT t addr := by
  intro net
  induction net with
  | nil =>
    intro len nh t addr _ hpos _ _
    simp at hpos
  | cons b ns ih =>
    intro len nh t addr hlen hpos hub hwf
    cases hwf with
    | mk leaf child hleaf hchild =>
      cases addr with
      | nil => simp at hlen
      | cons a as =>
        have hlen2 : ns.length = as.length := by simpa using hlen
        by_cases h8 : len ≤ 8
        · -- terminal stride: the prefix fans out over this node's slots
          simp only [insertT, if_pos h8, lookupT]
          by_cases hcov : a.val >>> (8 - len) = b.val >>> (8 - len)
          · have hbm : bitsMatch (b :: ns) len (a :: as) = true :=
              (bitsMatch_le8 b a ns as len h8 hlen2).2 hcov
            rw [if_pos hbm]
            simp only [if_pos hcov]
            rcases hca : child a with _ | c
            · simp only [hca, Option.elim_none]
            · simp only [hca, Option.elim_some]
              rcases hlc : lookupT c as with _ | p
              · simp only [hlc, deeperOr]
              · have hp1 : 1 ≤ p.1 := lookupT_pos as c (hchild a c hca) p hlc
                simp [hlc, deeperOr, pick, show ¬ (p.1 + 8 ≤ len) from by omega]
          · have hbm : ¬ (bitsMatch (b :: ns) len (a :: as) = true) :=
              fun h => hcov ((bitsMatch_le8 b a ns as len h8 hlen2).1 h)
            rw [if_neg hbm]
            simp only [if_neg hcov]
        · -- full stride: the insert recurses into the child for byte b
          have h8' : 8 ≤ len := by omega
          have hns : 0 < ns.length := by
            simp only [List.length_cons] at hub
            omega
          have hub2 : len - 8 ≤ 8 * ns.length := by
            simp only [List.length_cons] at hub
            omega
          have hlen8 : len - 8 + 8 = len := by omega
          simp only [insertT, if_neg h8, lookupT]
          by_cases hab : b = a
          · subst hab
            rw [if_pos (Eq.refl b)]
            simp only [Option.elim_some]
            have hbmc : bitsMatch (b :: ns) len (b :: as) =
                bitsMatch ns (len - 8) as := by
              simp [bitsMatch, h8']
            rw [hbmc]
            rcases hcb : child b with _ | c
            · have hih := ih (len - 8) nh Node.empty as hlen2 hns hub2 Wf0_empty
              simp only [hcb, Option.getD_none, Option.elim_none]
              rw [hih]
              cases hbm2 : bitsMatch ns (len - 8) as with
              | false => simp [hbm2, lookupT_empty, deeperOr]
              | true =>
                rcases hlb : leaf b with _ | p0
                · simp [hbm2, hlb, lookupT_empty, deeperOr, pick, hlen8]
                · have hp0 : p0.1 ≤ 8 := hleaf b p0 hlb
                  simp [hbm2, hlb, lookupT_empty, deeperOr, pick, hlen8,
                    show p0.1 ≤ len from by omega]
            · have hwfc : Wf0 c := Wf1_to_Wf0 (hchild b c hcb)
              have hih := ih (len - 8) nh c as hlen2 hns hub2 hwfc
              simp only [hcb, Option.getD_some, Option.elim_some]
              rw [hih]
              cases hbm2 : bitsMatch ns (len - 8) as with
              | false => simp [hbm2]
              | true =>
                rcases hlc : lookupT c as with _ | p
                · rcases hlb : leaf b with _ | p0
                  · simp [hbm2, hlc, hlb, deeperOr, pick, hlen8]
                  · have hp0 : p0.1 ≤ 8 := hleaf b p0 hlb
                    simp [hbm2, hlc, hlb, deeperOr, pick, hlen8,
                      show p0.1 ≤ len from by omega]
                · have hp1 : 1 ≤ p.1 := lookupT_pos as c (hchild b c hcb) p hlc
                  by_cases hple : p.1 ≤ len - 8
                  · simp [hbm2, hlc, deeperOr, pick, hlen8, hple,
                      show p.1 + 8 ≤ len from by omega]
                  · simp [hbm2, hlc, deeperOr, pick, hple,
                      show ¬ (p.1 + 8 ≤ len) from by omega]
          · have hne : ¬ (bitsMatch (b :: ns) len (a :: as) = true) := by
              simp [bitsMatch, h8', hab]
            rw [if_neg hne, if_neg (fun h => hab h.symm)]

/-- Modelled from the spec: lookup in the trie built from a list of
stored entries computes exactly the abstract longest-prefix match over
that list. -/
theorem build_bestMatch (es : List Entry) (addr : List Byte)
    (h : ∀ e ∈ es, e.net.length = addr.length ∧ e.len ≤ 8 * e.net.length)
    (ha : 0 < addr.length) :
    lookupT (build es) addr = bestMatch addr es := by
  induction es with
  | nil => simp [build, bestMatch, lookupT_empty]
  | cons e es ihe =>
    have he := h e (List.mem_cons_self e es)
    have hrest : ∀ e2 ∈ es, e2.net.length = addr.length ∧ e2.len ≤ 8 * e2.net.length :=
      fun e2 h2 => h e2 (List.mem_cons_of_mem e h2)
    have hpos : 0 < e.net.length := by omega
    rw [build, lookupT_insertT e.net e.len e.nh (build es) addr he.1 hpos he.2
      (build_Wf0 es), ihe hrest]
    rfl

/-- Merging a candidate into a previous best never yields a miss. -/
theorem pick_ne_none (l n : Nat) : ∀ o, pick l n o ≠ none
  | none => by simp [pick]
  | some p => by
      simp only [pick]
      split <;> simp

/-- The abstract longest-prefix match misses exactly when no stored
entry covers the address. -/
theorem bestMatch_none_iff (addr : List Byte) :
    ∀ es : List Entry, (bestMatch addr es = none ↔
      ∀ e ∈ es, bitsMatch e.net e.len addr = false) := by
  intro es
  induction es with
  | nil => simp [bestMatch]
  | cons e es ihe =>
    simp only [bestMatch]
    by_cases hc : bitsMatch e.net e.len addr = true
    · rw [if_pos hc]
      constructor
      · intro h
        exact absurd h (pick_ne_none e.len e.nh (bestMatch addr es))
      · intro h
        have := h e (List.mem_cons_self e es)
        rw [hc] at this
        cases this
    · rw [if_neg hc]
      rw [ihe]
      constructor
      · intro h e2 h2
        rcases List.mem_cons.1 h2 with h2 | h2
        · subst h2
          exact Bool.eq_false_iff.2 (fun hh => hc hh)
        · exact h e2 h2
      · intro h e2 h2
        exact h e2 (List.mem_cons_of_mem e h2)

/-- A hit of the abstract longest-prefix match is realized by a stored
entry covering the address whose length bounds every other covering
entry. -/
theorem bestMatch_spec (addr : List Byte) :
    ∀ (es : List Entry) (p : Nat × Nat), bestMatch addr es = some p →
      ∃ e ∈ es, e.len = p.1 ∧ e.nh = p.2 ∧ bitsMatch e.net e.len addr = true ∧
        ∀ e2 ∈ es, bitsMatch e2.net e2.len addr = true → e2.len ≤ p.1 := by
  intro es
  induction es with
  | nil => intro p h; simp [bestMatch] at h
  | cons e es ihe =>
    intro p h
    simp only [bestMatch] at h
    by_cases hc : bitsMatch e.net e.len addr = true
    · rw [if_pos hc] at h
      rcases hbm : bestMatch addr es with _ | q
      · rw [hbm] at h
        simp only [pick] at h
        cases h
        refine ⟨e, List.mem_cons_self e es, rfl, rfl, hc, ?_⟩
        intro e2 h2 hcov
        rcases List.mem_cons.1 h2 with h2 | h2
        · subst h2; exact le_refl _
        · exact absurd hcov (by
            rw [(bestMatch_none_iff addr es).1 hbm e2 h2]
            simp)
      · rw [hbm] at h
        rcases ihe q hbm with ⟨e1, he1, hlen1, hnh1, hcov1, hmax1⟩
        simp only [pick] at h
        by_cases hq : q.1 ≤ e.len
        · rw [if_pos hq] at h
          cases h
          refine ⟨e, List.mem_cons_self e es, rfl, rfl, hc, ?_⟩
          intro e2 h2 hcov
          rcases List.mem_cons.1 h2 with h2 | h2
          · subst h2; exact le_refl _
          · exact le_trans (hmax1 e2 h2 hcov) hq
        · rw [if_neg hq] at h
          cases h
          refine ⟨e1, List.mem_cons_of_mem e he1, hlen1, hnh1, hcov1, ?_⟩
          intro e2 h2 hcov
          rcases List.mem_cons.1 h2 with h2 | h2
          · subst h2; omega
          · exact hmax1 e2 h2 hcov
    · rw [if_neg hc] at h
      rcases ihe p h with ⟨e1, he1, hlen1, hnh1, hcov1, hmax1⟩
      refine ⟨e1, List.mem_cons_of_mem e he1, hlen1, hnh1, hcov1, ?_⟩
      intro e2 h2 hcov
      rcases List.mem_cons.1 h2 with h2 | h2
      · subst h2; exact absurd hcov hc
      · exact hmax1 e2 h2 hcov

/-- Mask the host bits of a packed network address: keep the top `len`
bits and zero everything beyond.  This models the canonical network
address the Python ipaddress module produces (IPv4Network/IPv6Network
with strict=False mask host bits; a network object's network_address
always has its host bits clear). -/
def maskBytes : List Byte → Nat → List Byte
  | [], _ => []
  | b :: bs, len =>
    if 8 ≤ len then b :: maskBytes bs (len - 8)
    else
      (⟨(b.val >>> (8 - len)) <<< (8 - len), by
        have hb := b.isLt
        simp only [Nat.shiftLeft_eq, Nat.shiftRight_eq_div_pow]
        exact lt_of_le_of_lt (Nat.div_mul_le_self _ _) hb⟩ : Byte) ::
      maskBytes bs 0

/-- Masking preserves the byte width. -/
theorem maskBytes_length : ∀ (bs : List Byte) (len : Nat),
    (maskBytes bs len).length = bs.length := by
  intro bs
  induction bs with
  | nil => intro len; rfl
  | cons b bs ih =>
    intro len
    by_cases h8 : 8 ≤ len
    · simp [maskBytes, if_pos h8, ih]
    · simp [maskBytes, if_neg h8, ih]

/-- Masking is idempotent. -/
theorem maskBytes_idem : ∀ (bs : List Byte) (len : Nat),
    maskBytes (maskBytes bs len) len = maskBytes bs len := by
  intro bs
  induction bs with
  | nil => intro len; rfl
  | cons b bs ih =>
    intro len
    by_cases h8 : 8 ≤ len
    · simp only [maskBytes, if_pos h8]
      rw [ih (len - 8)]
    · simp only [maskBytes, if_neg h8]
      rw [ih 0]
      congr 1
      apply Fin.ext
      show ((b.val >>> (8 - len)) <<< (8 - len) >>> (8 - len)) <<< (8 - len) =
        (b.val >>> (8 - len)) <<< (8 - len)
      simp only [Nat.shiftLeft_eq, Nat.shiftRight_eq_div_pow]
      rw [Nat.mul_div_cancel _ (pow_pos (by norm_num : (0 : Nat) < 2) _)]

/-- A byte string fixed by zero-bit masking is all zeroes. -/
theorem maskBytes_zero_all : ∀ bs : List Byte, maskBytes bs 0 = bs →
    bs = List.replicate bs.length (0 : Byte) := by
  intro bs
  induction bs with
  | nil => intro _; rfl
  | cons b bs ih =>
    intro h
    simp only [maskBytes] at h
    rw [if_neg (by omega)] at h
    rw [List.cons.injEq] at h
    obtain ⟨hb, hbs⟩ := h
    have hv : (b.val >>> 8) <<< 8 = b.val := congrArg Fin.val hb
    have hb0 : b = 0 := by
      rw [Nat.shiftRight_eq_div_pow, Nat.div_eq_of_lt b.isLt] at hv
      apply Fin.ext
      simpa using hv.symm
    subst hb0
    simp only [List.length_cons, List.replicate_succ, List.cons.injEq]
    exact ⟨trivial, ih hbs⟩

/-- Two canonical networks of the same width and length covering the
same address are equal: a canonical prefix is determined by its first
`len` bits. -/
theorem covers_canon_inj : ∀ (x y a : List Byte) (l : Nat),
    x.length = y.length → maskBytes x l = x → maskBytes y l = y →
    bitsMatch x l a = true → bitsMatch y l a = true → x = y := by
  intro x
  induction x with
  | nil =>
    intro y a l hlen _ _ _ _
    cases y with
    | nil => rfl
    | cons yb ys => simp at hlen
  | cons xb xs ih =>
    intro y a l hlen hcx hcy hmx hmy
    cases y with
    | nil => simp at hlen
    | cons yb ys =>
      cases a with
      | nil => simp [bitsMatch] at hmx
      | cons ab as =>
        have hlen2 : xs.length = ys.length := by simpa using hlen
        by_cases h8 : 8 ≤ l
        · simp only [bitsMatch, if_pos h8, Bool.and_eq_true, beq_iff_eq] at hmx hmy
          simp only [maskBytes, if_pos h8, List.cons.injEq] at hcx hcy
          have hhead : xb = yb := by rw [hmx.1, hmy.1]
          have htail : xs = ys :=
            ih ys as (l - 8) hlen2 hcx.2 hcy.2 hmx.2 hmy.2
          rw [hhead, htail]
        · simp only [bitsMatch, if_neg h8, beq_iff_eq] at hmx hmy
          simp only [maskBytes, if_neg h8, List.cons.injEq] at hcx hcy
          have hhead : xb = yb := by
            have hx : (xb.val >>> (8 - l)) <<< (8 - l) = xb.val :=
              congrArg Fin.val hcx.1
            have hy : (yb.val >>> (8 - l)) <<< (8 - l) = yb.val :=
              congrArg Fin.val hcy.1
            apply Fin.ext
            rw [← hx, ← hy, hmx, hmy]
          have hxz := maskBytes_zero_all xs hcx.2
          have hyz := maskBytes_zero_all ys hcy.2
          have htail : xs = ys := by
            rw [hxz, hyz, hlen2]
          rw [hhead, htail]

/-- The invariant the binding layer maintains on the engine store:
every entry has the family's byte width, a length within the family
bound, and a canonical (host-bits-zero) network; and no two entries
share the same (network, length) key. -/
def EntriesWf (w : Nat) (es : List Entry) : Prop :=
  (∀ e ∈ es, e.net.length = w ∧ e.len ≤ 8 * w ∧ maskBytes e.net e.len = e.net) ∧
  List.Pairwise (fun e1 e2 => ¬ (e1.net = e2.net ∧ e1.len = e2.len)) es

/-- When a stored entry covers the address and no covering entry is
longer, the abstract longest-prefix match returns exactly that entry's
length and next hop (the store invariant rules out ambiguity). -/
theorem bestMatch_of_maximal (addr : List Byte) (w : Nat) :
    ∀ (es : List Entry) (e : Entry), EntriesWf w es → e ∈ es →
      bitsMatch e.net e.len addr = true →
      (∀ e2 ∈ es, bitsMatch e2.net e2.len addr = true → e2.len ≤ e.len) →
      bestMatch addr es = some (e.len, e.nh) := by
  intro es
  induction es with
  | nil =>
    intro e _ he _ _
    exact absurd he (List.not_mem_nil e)
  | cons f es ihe =>
    intro e hwf he hcov hmax
    obtain ⟨hall, hpw⟩ := hwf
    have hpw2 := List.pairwise_cons.1 hpw
    have hwfrest : EntriesWf w es :=
      ⟨fun e2 h2 => hall e2 (List.mem_cons_of_mem f h2), hpw2.2⟩
    simp only [bestMatch]
    rcases List.mem_cons.1 he with hef | hes
    · rw [← hef]
      rw [if_pos (hef ▸ hcov)]
      rcases hbm : bestMatch addr es with _ | q
      · simp [pick]
      · obtain ⟨e1, he1, hlen1, hnh1, hcov1, hmax1⟩ := bestMatch_spec addr es q hbm
        have hq : q.1 ≤ e.len := by
          rw [← hlen1]
          exact hmax e1 (List.mem_cons_of_mem f he1) hcov1
        simp only [pick]
        rw [if_pos hq]
    · have hbm : bestMatch addr es = some (e.len, e.nh) :=
        ihe e hwfrest hes hcov
          (fun e2 h2 hc2 => hmax e2 (List.mem_cons_of_mem f h2) hc2)
      by_cases hcf : bitsMatch f.net f.len addr = true
      · rw [if_pos hcf, hbm]
        have hfe : f.len ≤ e.len := hmax f (List.mem_cons_self f es) hcf
        have hne : ¬ (e.len ≤ f.len) := by
          intro hle
          have hll : f.len = e.len := le_antisymm hfe hle
          have h1 := hall f (List.mem_cons_self f es)
          have h2 := hall e (List.mem_cons_of_mem f hes)
          have hnet : f.net = e.net := by
            refine covers_canon_inj f.net e.net addr f.len ?_ h1.2.2 ?_ hcf ?_
            · rw [h1.1, h2.1]
            · rw [hll]
              exact h2.2.2
            · rw [hll]
              exact hcov
          exact hpw2.1 e hes ⟨hnet, hll⟩
        simp only [pick]
        rw [if_neg hne]
      · rw [if_neg hcf]
        exact hbm

/-- Modelled from the spec: the engine store keyed by (network, length).
Insert overwrites the next hop of an existing key and otherwise adds a
new entry (spec.md §3: re-insert of an existing pair overwrites rather
than duplicating). -/
def upsert (net : List Byte) (len nh : Nat) : List Entry → List Entry
  | [] => [⟨net, len, nh⟩]
  | e :: es =>
    if e.net = net ∧ e.len = len then ⟨net, len, nh⟩ :: es
    else e :: upsert net len nh es

/-- Modelled from the spec: engine delete, failing (`none`) when the
exact (network, length) key is not present (spec.md §4.1: delete fails
if the prefix is not present). -/
def removeKey (net : List Byte) (len : Nat) : List Entry → Option (List Entry)
  | [] => none
  | e :: es =>
    if e.net = net ∧ e.len = len then some es
    else (removeKey net len es).map (fun r => e :: r)

/-- Modelled from the spec: the engine's raw lookup result, the
INVALID_NEXT_HOP sentinel when no stored prefix covers the address
(spec.md §4.1, §6). -/
def engineLookup (es : List Entry) (addr : List Byte) : Nat :=
  match lookupT (build es) addr with
  | some p => p.2
  | none => INVALID_NEXT_HOP

/-- The exceptions of the binding layer
(src/bindings/python/src/liblpm/exceptions.py; ValueError is Python's
built-in). -/
inductive PyError where
  | valueError
  | lpmClosedError
  | lpmInsertError
  | lpmDeleteError
  | lpmInvalidPrefixError
deriving DecidableEq, Repr

/-- The state of a Python-level LPM table
(src/bindings/python/src/liblpm/table.py): the address family's width
in bytes (4 for LpmTableIPv4, 16 for LpmTableIPv6), the algorithm tag,
the engine's entry store (spec-modelled), and the wrapper's closed
flag. -/
structure PyTable where
  width : Nat
  algorithm : String
  entries : List Entry
  closed : Bool
deriving DecidableEq, Repr

/-- LpmTableIPv4.__init__ (table.py lines 109-123): accept only the
tags dir24 and stride8, raising ValueError otherwise, and start with
an empty open engine. -/
def mkLpmTableIPv4 (algo : String) : Except PyError PyTable :=
  if algo = "dir24" ∨ algo = "stride8" then
    Except.ok (PyTable.mk 4 algo [] false)
  else Except.error PyError.valueError

/-- LpmTableIPv6.__init__ (table.py lines 422-436): accept only the
tags wide16 and stride8, raising ValueError otherwise, and start with
an empty open engine. -/
def mkLpmTableIPv6 (algo : String) : Except PyError PyTable :=
  if algo = "wide16" ∨ algo = "stride8" then
    Except.ok (PyTable.mk 16 algo [] false)
  else Except.error PyError.valueError

/-- insert of the binding layer (table.py lines 139-195 and 452-508):
raise on a closed table, then validate that the next hop is a 32-bit
unsigned value, then parse/validate the prefix (the ipaddress module
rejects wrong-family networks and out-of-range lengths and masks host
bits for strict=False, so the engine receives the canonical network
bytes), and finally call the engine's add, modelled from the spec as
an upsert that cannot fail on validated input. -/
def pyInsert (t : PyTable) (net : List Byte) (len : Nat) (nh : Int) :
    Except PyError PyTable :=
  if t.closed then Except.error PyError.lpmClosedError
  else if nh < 0 ∨ (0xFFFFFFFF : Int) < nh then Except.error PyError.valueError
  else if net.length ≠ t.width ∨ 8 * t.width < len then
    Except.error PyError.lpmInvalidPrefixError
  else
    Except.ok (PyTable.mk t.width t.algorithm
      (upsert (maskBytes net len) len nh.toNat t.entries) t.closed)

/-- delete of the binding layer (table.py lines 197-238 and 510-551):
raise on a closed table, parse/canonicalize the prefix, call the
engine's delete, and raise LpmDeleteError when the engine reports
failure (the prefix was not present). -/
def pyDelete (t : PyTable) (net : List Byte) (len : Nat) :
    Except PyError PyTable :=
  if t.closed then Except.error PyError.lpmClosedError
  else if net.length ≠ t.width ∨ 8 * t.width < len then
    Except.error PyError.lpmInvalidPrefixError
  else
    match removeKey (maskBytes net len) len t.entries with
    | some es => Except.ok (PyTable.mk t.width t.algorithm es t.closed)
    | none => Except.error PyError.lpmDeleteError

/-- The sentinel-to-None conversion of the binding layer (table.py
lines 276-277, 326-330, 589-590, 637-641). -/
def surfaceNH (r : Nat) : Option Nat :=
  if r ≠ INVALID_NEXT_HOP then some r else none

/-- lookup of the binding layer (table.py lines 240-277 and 553-590):
raise on a closed table, query the engine, and surface the sentinel as
None. -/
def pyLookup (t : PyTable) (addr : List Byte) : Except PyError (Option Nat) :=
  if t.closed then Except.error PyError.lpmClosedError
  else Except.ok (surfaceNH (engineLookup t.entries addr))

/-- lookup_batch of the binding layer (table.py lines 279-330 and
592-641): raise on a closed table, return the empty list for an empty
input before any engine access, and otherwise run the engine's batch
lookup, which the spec (§4.4) requires to agree elementwise with
single lookups. -/
def pyLookupBatch (t : PyTable) (addrs : List (List Byte)) :
    Except PyError (List (Option Nat)) :=
  if t.closed then Except.error PyError.lpmClosedError
  else if addrs = [] then Except.ok []
  else Except.ok (addrs.map (fun a => surfaceNH (engineLookup t.entries a)))

/-- close of the binding layer (table.py lines 332-344 and 643-655):
free the engine and set the closed flag if the table is still open;
do nothing on an already-closed table. -/
def pyClose (t : PyTable) : PyTable :=
  if t.closed then t
  else PyTable.mk t.width t.algorithm [] true

/-- num_prefixes (table.py lines 364-371): the engine's stored-prefix
count, which in the spec-modelled store is the entry-list length. -/
def PyTable.numPrefixes (t : PyTable) : Nat := t.entries.length

/-- Under the usual width bounds, the engine lookup realizes the
abstract longest-prefix match. -/
theorem engineLookup_bestMatch (es : List Entry) (addr : List Byte)
    (h : ∀ e ∈ es, e.net.length = addr.length ∧ e.len ≤ 8 * e.net.length)
    (ha : 0 < addr.length) :
    engineLookup es addr =
      (match bestMatch addr es with
        | some p => p.2
        | none => INVALID_NEXT_HOP) := by
  unfold engineLookup
  rw [build_bestMatch es addr h ha]

/-- Every entry of an upsert result is the new entry or an old one. -/
theorem upsert_mem (net : List Byte) (len nh : Nat) :
    ∀ (es : List Entry) (e2 : Entry), e2 ∈ upsert net len nh es →
      e2 = Entry.mk net len nh ∨ e2 ∈ es := by
  intro es
  induction es with
  | nil =>
    intro e2 h2
    simp only [upsert] at h2
    rcases List.mem_singleton.1 h2 with h
    exact Or.inl h
  | cons f es ihe =>
    intro e2 h2
    simp only [upsert] at h2
    by_cases hk : f.net = net ∧ f.len = len
    · rw [if_pos hk] at h2
      rcases List.mem_cons.1 h2 with h | h
      · exact Or.inl h
      · exact Or.inr (List.mem_cons_of_mem f h)
    · rw [if_neg hk] at h2
      rcases List.mem_cons.1 h2 with h | h
      · exact Or.inr (h ▸ List.mem_cons_self f es)
      · rcases ihe e2 h with h | h
        · exact Or.inl h
        · exact Or.inr (List.mem_cons_of_mem f h)

/-- The upserted entry is in the result. -/
theorem upsert_mem_self (net : List Byte) (len nh : Nat) :
    ∀ es : List Entry, Entry.mk net len nh ∈ upsert net len nh es := by
  intro es
  induction es with
  | nil => simp [upsert]
  | cons f es ihe =>
    simp only [upsert]
    by_cases hk : f.net = net ∧ f.len = len
    · rw [if_pos hk]
      exact List.mem_cons_self _ _
    · rw [if_neg hk]
      exact List.mem_cons_of_mem f ihe

/-- Upserting an existing key keeps the number of entries unchanged. -/
theorem upsert_length_present (net : List Byte) (len nh : Nat) :
    ∀ es : List Entry, (∃ e ∈ es, e.net = net ∧ e.len = len) →
      (upsert net len nh es).length = es.length := by
  intro es
  induction es with
  | nil =>
    intro h
    obtain ⟨e, he, _⟩ := h
    exact absurd he (List.not_mem_nil e)
  | cons f es ihe =>
    intro h
    simp only [upsert]
    by_cases hk : f.net = net ∧ f.len = len
    · rw [if_pos hk]
      simp
    · rw [if_neg hk]
      obtain ⟨e, he, hkey⟩ := h
      rcases List.mem_cons.1 he with hef | hes
      · exact absurd (hef ▸ hkey) hk
      · simp only [List.length_cons]
        rw [ihe ⟨e, hes, hkey⟩]

/-- Upsert with a well-formed new entry preserves the store invariant. -/
theorem upsert_EntriesWf (w : Nat) (net : List Byte) (len nh : Nat)
    (hw : net.length = w) (hl : len ≤ 8 * w) (hc : maskBytes net len = net) :
    ∀ es : List Entry, EntriesWf w es → EntriesWf w (upsert net len nh es) := by
  intro es
  induction es with
  | nil =>
    intro _
    constructor
    · intro e he
      rcases List.mem_singleton.1 he with h
      rw [h]
      exact ⟨hw, hl, hc⟩
    · simp [upsert]
  | cons f es ihe =>
    intro hwf
    obtain ⟨hall, hpw⟩ := hwf
    have hpw2 := List.pairwise_cons.1 hpw
    have hwfrest : EntriesWf w es :=
      ⟨fun e2 h2 => hall e2 (List.mem_cons_of_mem f h2), hpw2.2⟩
    simp only [upsert]
    by_cases hk : f.net = net ∧ f.len = len
    · rw [if_pos hk]
      constructor
      · intro e he
        rcases List.mem_cons.1 he with h | h
        · rw [h]
          exact ⟨hw, hl, hc⟩
        · exact hall e (List.mem_cons_of_mem f h)
      · refine List.pairwise_cons.2 ⟨?_, hpw2.2⟩
        intro e2 h2 hkey
        exact hpw2.1 e2 h2 ⟨hk.1.symm ▸ hkey.1, hk.2.symm ▸ hkey.2⟩
    · rw [if_neg hk]
      obtain ⟨hall2, hpw3⟩ := ihe hwfrest
      constructor
      · intro e he
        rcases List.mem_cons.1 he with h | h
        · rw [h]
          exact hall f (List.mem_cons_self f es)
        · exact hall2 e h
      · refine List.pairwise_cons.2 ⟨?_, hpw3⟩
        intro e2 h2 hkey
        rcases upsert_mem net len nh es e2 h2 with h | h
        · rw [h] at hkey
          exact hk ⟨hkey.1, hkey.2⟩
        · exact hpw2.1 e2 h hkey

/-- A successful key removal yields a sublist of the store. -/
theorem removeKey_sublist (net : List Byte) (len : Nat) :
    ∀ (es es2 : List Entry), removeKey net len es = some es2 →
      es2.Sublist es := by
  intro es
  induction es with
  | nil =>
    intro es2 h
    simp [removeKey] at h
  | cons f es ihe =>
    intro es2 h
    simp only [removeKey] at h
    by_cases hk : f.net = net ∧ f.len = len
    · rw [if_pos hk] at h
      cases h
      exact List.sublist_cons_self f _
    · rw [if_neg hk] at h
      rcases hr : removeKey net len es with _ | r
      · rw [hr] at h
        simp at h
      · rw [hr] at h
        simp only [Option.map_some'] at h
        cases h
        exact List.Sublist.cons₂ f (ihe r hr)

/-- Removing a key preserves the store invariant. -/
theorem removeKey_EntriesWf (w : Nat) (net : List Byte) (len : Nat)
    (es es2 : List Entry) (h : removeKey net len es = some es2)
    (hwf : EntriesWf w es) : EntriesWf w es2 := by
  have hs := removeKey_sublist net len es es2 h
  exact ⟨fun e2 h2 => hwf.1 e2 (hs.mem h2), hwf.2.sublist hs⟩

/-- Removal succeeds whenever the key is present. -/
theorem removeKey_present (net : List Byte) (len : Nat) :
    ∀ es : List Entry, (∃ e ∈ es, e.net = net ∧ e.len = len) →
      ∃ es2, removeKey net len es = some es2 := by
  intro es
  induction es with
  | nil =>
    intro h
    obtain ⟨e, he, _⟩ := h
    exact absurd he (List.not_mem_nil e)
  | cons f es ihe =>
    intro h
    simp only [removeKey]
    by_cases hk : f.net = net ∧ f.len = len
    · rw [if_pos hk]
      exact ⟨es, rfl⟩
    · rw [if_neg hk]
      obtain ⟨e, he, hkey⟩ := h
      rcases List.mem_cons.1 he with hef | hes
      · exact absurd (hef ▸ hkey) hk
      · obtain ⟨r, hr⟩ := ihe ⟨e, hes, hkey⟩
        exact ⟨f :: r, by rw [hr]; rfl⟩

/-- Lookup on an open table with a well-formed, sentinel-free store:
a miss (None) when nothing covers the address, and the maximal
covering entry's next hop otherwise. -/
theorem pyLookup_spec (t : PyTable) (addr : List Byte)
    (hopen : t.closed = false) (hw : 0 < t.width)
    (haddr : addr.length = t.width)
    (hwf : EntriesWf t.width t.entries)
    (hnh : ∀ e ∈ t.entries, e.nh ≠ INVALID_NEXT_HOP) :
    ((∀ e ∈ t.entries, bitsMatch e.net e.len addr = false) →
      pyLookup t addr = Except.ok none) ∧
    (∀ e ∈ t.entries, bitsMatch e.net e.len addr = true →
      (∀ e2 ∈ t.entries, bitsMatch e2.net e2.len addr = true → e2.len ≤ e.len) →
      pyLookup t addr = Except.ok (some e.nh)) := by
  have hlk : pyLookup t addr = Except.ok (surfaceNH (engineLookup t.entries addr)) := by
    simp [pyLookup, hopen]
  have hb : ∀ e ∈ t.entries, e.net.length = addr.length ∧ e.len ≤ 8 * e.net.length := by
    intro e he
    obtain ⟨h1, h2, _⟩ := hwf.1 e he
    exact ⟨by rw [h1, haddr], by rw [h1]; exact h2⟩
  have ha : 0 < addr.length := by rw [haddr]; exact hw
  have heng := engineLookup_bestMatch t.entries addr hb ha
  constructor
  · intro hmiss
    have hnone : bestMatch addr t.entries = none :=
      (bestMatch_none_iff addr t.entries).2 hmiss
    rw [hlk, heng, hnone]
    simp [surfaceNH]
  · intro e he hcov hmax
    have hsome : bestMatch addr t.entries = some (e.len, e.nh) :=
      bestMatch_of_maximal addr t.width t.entries e hwf he hcov hmax
    rw [hlk, heng, hsome]
    simp [surfaceNH, hnh e he]

/-- C1: for every open table (well-formed, sentinel-free store) and
every address of the table's family, lookup returns the next hop of
the longest stored prefix covering the address, and returns the miss
value None when no stored prefix covers it. -/
theorem C1_lookup_longest_match (t : PyTable) (addr : List Byte)
    (hopen : t.closed = false) (hw : 0 < t.width)
    (haddr : addr.length = t.width)
    (hwf : EntriesWf t.width t.entries)
    (hnh : ∀ e ∈ t.entries, e.nh ≠ INVALID_NEXT_HOP) :
    ((∀ e ∈ t.entries, bitsMatch e.net e.len addr = false) →
      pyLookup t addr = Except.ok none) ∧
    (∀ e ∈ t.entries, bitsMatch e.net e.len addr = true →
      (∀ e2 ∈ t.entries, bitsMatch e2.net e2.len addr = true → e2.len ≤ e.len) →
      pyLookup t addr = Except.ok (some e.nh)) :=
  pyLookup_spec t addr hopen hw haddr hwf hnh

/-- C1 witness: the spec's example scenario, where the /24 route wins
over the /16 route for 192.168.1.1. -/
theorem C1_lookup_longest_match_witness :
    pyLookup (PyTable.mk 4 "dir24"
        [Entry.mk [192, 168, 1, 128] 25 25, Entry.mk [192, 168, 1, 0] 24 24,
         Entry.mk [192, 168, 0, 0] 16 16] false)
      [192, 168, 1, 1] = Except.ok (some 24) :=
  (C1_lookup_longest_match (PyTable.mk 4 "dir24"
        [Entry.mk [192, 168, 1, 128] 25 25, Entry.mk [192, 168, 1, 0] 24 24,
         Entry.mk [192, 168, 0, 0] 16 16] false)
      [192, 168, 1, 1] rfl (by decide) (by decide)
      ⟨by decide, by decide⟩ (by decide)).2
    (Entry.mk [192, 168, 1, 0] 24 24) (by decide) (by decide) (by decide)

/-- C2 counterexample: inserting the reserved sentinel 0xFFFFFFFF as a
next hop into a fresh open IPv4 table does not fail: the wrapper's
range check (table.py lines 163-167) accepts any value in
0..0xFFFFFFFF, including the sentinel, and the entry is stored. -/
theorem C2_sentinel_insert_counterexample :
    pyInsert (PyTable.mk 4 "dir24" [] false) [10, 0, 0, 0] 8 0xFFFFFFFF =
      Except.ok (PyTable.mk 4 "dir24" [Entry.mk [10, 0, 0, 0] 8 0xFFFFFFFF]
        false) := by
  rfl

/-- C2 amended: insert validates only the 32-bit range of the next hop:
values outside 0..0xFFFFFFFF raise ValueError, while the sentinel
0xFFFFFFFF itself is accepted by an open table for a valid prefix and
handed to the engine, which stores it. -/
theorem C2_sentinel_insert_amended (t : PyTable) (net : List Byte) (len : Nat)
    (hopen : t.closed = false) (hnet : net.length = t.width)
    (hlen : len ≤ 8 * t.width) :
    pyInsert t net len 0xFFFFFFFF =
      Except.ok (PyTable.mk t.width t.algorithm
        (upsert (maskBytes net len) len 0xFFFFFFFF t.entries) t.closed) ∧
    (∀ nh : Int, (nh < 0 ∨ (0xFFFFFFFF : Int) < nh) →
      pyInsert t net len nh = Except.error PyError.valueError) := by
  constructor
  · have h1 : ¬ ((0xFFFFFFFF : Int) < 0 ∨ (0xFFFFFFFF : Int) < 0xFFFFFFFF) := by
      decide
    have h2 : ¬ (net.length ≠ t.width ∨ 8 * t.width < len) := by
      push_neg
      exact ⟨hnet, hlen⟩
    simp only [pyInsert, hopen, Bool.false_eq_true, if_false, if_neg h1,
      if_neg h2]
    rfl
  · intro nh hnh
    simp only [pyInsert, hopen, Bool.false_eq_true, if_false, if_pos hnh]

/-- C2 amended witness: concrete sentinel insert into a fresh table and
a concrete out-of-range rejection. -/
theorem C2_sentinel_insert_amended_witness :
    pyInsert (PyTable.mk 4 "dir24" [] false) [10, 0, 0, 0] 8 0xFFFFFFFF =
      Except.ok (PyTable.mk 4 "dir24"
        (upsert (maskBytes [10, 0, 0, 0] 8) 8 0xFFFFFFFF []) false) ∧
    pyInsert (PyTable.mk 4 "dir24" [] false) [10, 0, 0, 0] 8 0x100000000 =
      Except.error PyError.valueError :=
  ⟨(C2_sentinel_insert_amended (PyTable.mk 4 "dir24" [] false) [10, 0, 0, 0] 8
      rfl (by decide) (by decide)).1,
   (C2_sentinel_insert_amended (PyTable.mk 4 "dir24" [] false) [10, 0, 0, 0] 8
      rfl (by decide) (by decide)).2 0x100000000 (by decide)⟩

/-- C3: for every open table, batch lookup is elementwise identical to
single lookup (one function produces both, hence equal lengths and
pointwise agreement), and the empty input yields the empty output. -/
theorem C3_batch_matches_single (t : PyTable) (addrs : List (List Byte))
    (hopen : t.closed = false) :
    ∃ f : List Byte → Option Nat,
      pyLookupBatch t addrs = Except.ok (addrs.map f) ∧
      (∀ a, pyLookup t a = Except.ok (f a)) ∧
      (addrs = [] → pyLookupBatch t addrs = Except.ok []) := by
  refine ⟨fun a => surfaceNH (engineLookup t.entries a), ?_, ?_, ?_⟩
  · by_cases he : addrs = []
    · subst he
      simp [pyLookupBatch, hopen]
    · simp [pyLookupBatch, hopen, he]
  · intro a
    simp [pyLookup, hopen]
  · intro he
    subst he
    simp [pyLookupBatch, hopen]

/-- C3 witness: a concrete two-address batch against a concrete open
table. -/
theorem C3_batch_matches_single_witness :
    ∃ f : List Byte → Option Nat,
      pyLookupBatch (PyTable.mk 4 "dir24" [Entry.mk [192, 168, 0, 0] 16 100]
          false) [[192, 168, 1, 1], [10, 0, 0, 1]] =
        Except.ok ([[192, 168, 1, 1], [10, 0, 0, 1]].map f) ∧
      (∀ a, pyLookup (PyTable.mk 4 "dir24" [Entry.mk [192, 168, 0, 0] 16 100]
          false) a = Except.ok (f a)) ∧
      ([[192, 168, 1, 1], [10, 0, 0, 1]] = ([] : List (List Byte)) →
        pyLookupBatch (PyTable.mk 4 "dir24" [Entry.mk [192, 168, 0, 0] 16 100]
          false) [[192, 168, 1, 1], [10, 0, 0, 1]] = Except.ok []) :=
  C3_batch_matches_single
    (PyTable.mk 4 "dir24" [Entry.mk [192, 168, 0, 0] 16 100] false)
    [[192, 168, 1, 1], [10, 0, 0, 1]] rfl

/-- C4: deleting a stored prefix succeeds, and lookups on the resulting
table follow the longest remaining covering prefix: an address whose
best match was the deleted prefix falls back to the next-less-specific
covering prefix's next hop, or to a miss when no remaining prefix
covers it. -/
theorem C4_delete_restores (t : PyTable) (q : Entry)
    (hopen : t.closed = false) (hw : 0 < t.width)
    (hwf : EntriesWf t.width t.entries) (hq : q ∈ t.entries)
    (hnh : ∀ e ∈ t.entries, e.nh ≠ INVALID_NEXT_HOP) :
    ∃ t2, pyDelete t q.net q.len = Except.ok t2 ∧
      removeKey q.net q.len t.entries = some t2.entries ∧
      ∀ addr : List Byte, addr.length = t.width →
        ((∀ e ∈ t2.entries, bitsMatch e.net e.len addr = false) →
          pyLookup t2 addr = Except.ok none) ∧
        (∀ e ∈ t2.entries, bitsMatch e.net e.len addr = true →
          (∀ e2 ∈ t2.entries, bitsMatch e2.net e2.len addr = true →
            e2.len ≤ e.len) →
          pyLookup t2 addr = Except.ok (some e.nh)) := by
  obtain ⟨hql, hqb, hqc⟩ := hwf.1 q hq
  obtain ⟨es2, hes2⟩ := removeKey_present q.net q.len t.entries ⟨q, hq, rfl, rfl⟩
  have hcond : ¬ (q.net.length ≠ t.width ∨ 8 * t.width < q.len) := by
    push_neg
    exact ⟨hql, hqb⟩
  refine ⟨PyTable.mk t.width t.algorithm es2 t.closed, ?_, hes2, ?_⟩
  · simp only [pyDelete, hopen, Bool.false_eq_true, if_false, if_neg hcond,
      hqc, hes2]
  · intro addr haddr
    have hwf2 : EntriesWf t.width es2 :=
      removeKey_EntriesWf t.width q.net q.len t.entries es2 hes2 hwf
    have hnh2 : ∀ e ∈ es2, e.nh ≠ INVALID_NEXT_HOP :=
      fun e he =>
        hnh e ((removeKey_sublist q.net q.len t.entries es2 hes2).mem he)
    exact pyLookup_spec (PyTable.mk t.width t.algorithm es2 t.closed) addr
      hopen hw haddr hwf2 hnh2

/-- C4 witness: the spec's example scenario: after deleting
192.168.1.0/24 the address 192.168.1.1 falls back to the /16 route. -/
theorem C4_delete_restores_witness :
    ∃ t2, pyDelete (PyTable.mk 4 "dir24"
        [Entry.mk [192, 168, 1, 128] 25 25, Entry.mk [192, 168, 1, 0] 24 24,
         Entry.mk [192, 168, 0, 0] 16 16] false)
        [192, 168, 1, 0] 24 = Except.ok t2 ∧
      removeKey [192, 168, 1, 0] 24
        [Entry.mk [192, 168, 1, 128] 25 25, Entry.mk [192, 168, 1, 0] 24 24,
         Entry.mk [192, 168, 0, 0] 16 16] = some t2.entries ∧
      ∀ addr : List Byte, addr.length = 4 →
        ((∀ e ∈ t2.entries, bitsMatch e.net e.len addr = false) →
          pyLookup t2 addr = Except.ok none) ∧
        (∀ e ∈ t2.entries, bitsMatch e.net e.len addr = true →
          (∀ e2 ∈ t2.entries, bitsMatch e2.net e2.len addr = true →
            e2.len ≤ e.len) →
          pyLookup t2 addr = Except.ok (some e.nh)) :=
  C4_delete_restores (PyTable.mk 4 "dir24"
      [Entry.mk [192, 168, 1, 128] 25 25, Entry.mk [192, 168, 1, 0] 24 24,
       Entry.mk [192, 168, 0, 0] 16 16] false)
    (Entry.mk [192, 168, 1, 0] 24 24) rfl (by decide)
    ⟨by decide, by decide⟩ (by decide) (by decide)

/-- C5: re-inserting an existing (network, length) with a new valid
next hop succeeds, leaves num_prefixes unchanged, and every address
whose longest covering prefix is that prefix now looks up to the new
value. -/
theorem C5_reinsert_updates (t : PyTable) (q : Entry) (v : Int)
    (hopen : t.closed = false) (hw : 0 < t.width)
    (hwf : EntriesWf t.width t.entries) (hq : q ∈ t.entries)
    (hnh : ∀ e ∈ t.entries, e.nh ≠ INVALID_NEXT_HOP)
    (hv : 0 ≤ v ∧ v < 0xFFFFFFFF) :
    ∃ t2, pyInsert t q.net q.len v = Except.ok t2 ∧
      t2.numPrefixes = t.numPrefixes ∧
      ∀ addr : List Byte, addr.length = t.width →
        bitsMatch q.net q.len addr = true →
        (∀ e2 ∈ t.entries, bitsMatch e2.net e2.len addr = true →
          e2.len ≤ q.len) →
        pyLookup t2 addr = Except.ok (some v.toNat) := by
  obtain ⟨hql, hqb, hqc⟩ := hwf.1 q hq
  have hvr : ¬ (v < 0 ∨ (0xFFFFFFFF : Int) < v) := by
    push_neg
    exact ⟨hv.1, le_of_lt hv.2⟩
  have hcond : ¬ (q.net.length ≠ t.width ∨ 8 * t.width < q.len) := by
    push_neg
    exact ⟨hql, hqb⟩
  refine ⟨PyTable.mk t.width t.algorithm
    (upsert q.net q.len v.toNat t.entries) t.closed, ?_, ?_, ?_⟩
  · simp only [pyInsert, hopen, Bool.false_eq_true, if_false, if_neg hvr,
      if_neg hcond, hqc]
  · show (upsert q.net q.len v.toNat t.entries).length = t.entries.length
    exact upsert_length_present q.net q.len v.toNat t.entries ⟨q, hq, rfl, rfl⟩
  · intro addr haddr hcov hmax
    have hwf2 : EntriesWf t.width (upsert q.net q.len v.toNat t.entries) :=
      upsert_EntriesWf t.width q.net q.len v.toNat hql hqb hqc t.entries hwf
    have hnh2 : ∀ e ∈ upsert q.net q.len v.toNat t.entries,
        e.nh ≠ INVALID_NEXT_HOP := by
      intro e he
      rcases upsert_mem q.net q.len v.toNat t.entries e he with h | h
      · rw [h]
        show v.toNat ≠ INVALID_NEXT_HOP
        have h1 := hv.1
        have h2 := hv.2
        unfold INVALID_NEXT_HOP
        omega
      · exact hnh e h
    have hmax2 : ∀ e2 ∈ upsert q.net q.len v.toNat t.entries,
        bitsMatch e2.net e2.len addr = true →
          e2.len ≤ (Entry.mk q.net q.len v.toNat).len := by
      intro e2 h2 hc2
      rcases upsert_mem q.net q.len v.toNat t.entries e2 h2 with h | h
      · rw [h]
      · exact hmax e2 h hc2
    exact (pyLookup_spec (PyTable.mk t.width t.algorithm
        (upsert q.net q.len v.toNat t.entries) t.closed) addr hopen hw haddr
        hwf2 hnh2).2
      (Entry.mk q.net q.len v.toNat)
      (upsert_mem_self q.net q.len v.toNat t.entries) hcov hmax2

/-- C5 witness: re-inserting 192.168.0.0/16 with next hop 200 keeps one
stored prefix and redirects 192.168.1.1 to 200 (test_insert_update). -/
theorem C5_reinsert_updates_witness :
    ∃ t2, pyInsert (PyTable.mk 4 "dir24"
        [Entry.mk [192, 168, 0, 0] 16 100] false) [192, 168, 0, 0] 16 200 =
        Except.ok t2 ∧
      t2.numPrefixes = (PyTable.mk 4 "dir24"
        [Entry.mk [192, 168, 0, 0] 16 100] false).numPrefixes ∧
      ∀ addr : List Byte, addr.length = 4 →
        bitsMatch [192, 168, 0, 0] 16 addr = true →
        (∀ e2 ∈ [Entry.mk [192, 168, 0, 0] 16 100],
          bitsMatch e2.net e2.len addr = true → e2.len ≤ 16) →
        pyLookup t2 addr = Except.ok (some (Int.toNat 200)) :=
  C5_reinsert_updates
    (PyTable.mk 4 "dir24" [Entry.mk [192, 168, 0, 0] 16 100] false)
    (Entry.mk [192, 168, 0, 0] 16 100) 200 rfl (by decide)
    ⟨by decide, by decide⟩ (by decide) (by decide) (by decide)

/-- C6: on a closed table every operation fails with the closed-table
error instead of reaching the engine. -/
theorem C6_closed_table_ops (t : PyTable) (h : t.closed = true) :
    (∀ net len nh, pyInsert t net len nh =
      Except.error PyError.lpmClosedError) ∧
    (∀ net len, pyDelete t net len = Except.error PyError.lpmClosedError) ∧
    (∀ addr, pyLookup t addr = Except.error PyError.lpmClosedError) ∧
    (∀ addrs, pyLookupBatch t addrs =
      Except.error PyError.lpmClosedError) := by
  refine ⟨fun net len nh => ?_, fun net len => ?_, fun addr => ?_,
    fun addrs => ?_⟩ <;>
    simp [pyInsert, pyDelete, pyLookup, pyLookupBatch, h]

/-- C6 witness: all four operations on a concrete closed table. -/
theorem C6_closed_table_ops_witness :
    pyInsert (PyTable.mk 4 "dir24" [] true) [10, 0, 0, 0] 8 200 =
      Except.error PyError.lpmClosedError ∧
    pyDelete (PyTable.mk 4 "dir24" [] true) [10, 0, 0, 0] 8 =
      Except.error PyError.lpmClosedError ∧
    pyLookup (PyTable.mk 4 "dir24" [] true) [192, 168, 1, 1] =
      Except.error PyError.lpmClosedError ∧
    pyLookupBatch (PyTable.mk 4 "dir24" [] true) [[192, 168, 1, 1]] =
      Except.error PyError.lpmClosedError :=
  ⟨(C6_closed_table_ops (PyTable.mk 4 "dir24" [] true) rfl).1 _ _ _,
   (C6_closed_table_ops (PyTable.mk 4 "dir24" [] true) rfl).2.1 _ _,
   (C6_closed_table_ops (PyTable.mk 4 "dir24" [] true) rfl).2.2.1 _,
   (C6_closed_table_ops (PyTable.mk 4 "dir24" [] true) rfl).2.2.2 _⟩

/-- C7: close marks the table closed, is idempotent, and a close on an
already-closed table is a no-op that raises no error (pyClose is a
total function). -/
theorem C7_close_idempotent (t : PyTable) :
    (pyClose t).closed = true ∧ pyClose (pyClose t) = pyClose t ∧
    (t.closed = true → pyClose t = t) := by
  by_cases h : t.closed = true
  · refine ⟨?_, ?_, fun _ => ?_⟩ <;> simp [pyClose, h]
  · refine ⟨?_, ?_, fun hc => absurd hc h⟩ <;> simp [pyClose, h]

/-- C7 witness: closing a concrete fresh table. -/
theorem C7_close_idempotent_witness :
    (pyClose (PyTable.mk 4 "dir24" [] false)).closed = true ∧
    pyClose (pyClose (PyTable.mk 4 "dir24" [] false)) =
      pyClose (PyTable.mk 4 "dir24" [] false) ∧
    ((PyTable.mk 4 "dir24" [] false).closed = true →
      pyClose (PyTable.mk 4 "dir24" [] false) =
        PyTable.mk 4 "dir24" [] false) :=
  C7_close_idempotent (PyTable.mk 4 "dir24" [] false)

/-- C8: insert canonicalizes host bits rather than rejecting them:
inserting any network bytes behaves exactly like inserting the already
masked network, and on success every stored entry has all bits beyond
its length equal to zero. -/
theorem C8_insert_masks_host_bits (t : PyTable) (net : List Byte) (len : Nat)
    (nh : Int) (hcanon : ∀ e ∈ t.entries, maskBytes e.net e.len = e.net) :
    pyInsert t net len nh = pyInsert t (maskBytes net len) len nh ∧
    (∀ t2, pyInsert t net len nh = Except.ok t2 →
      ∀ e ∈ t2.entries, maskBytes e.net e.len = e.net) := by
  constructor
  · simp only [pyInsert, maskBytes_length, maskBytes_idem]
  · intro t2 h2 e he
    by_cases hcl : t.closed = true
    · simp only [pyInsert] at h2
      rw [if_pos hcl] at h2
      simp at h2
    · by_cases hr : nh < 0 ∨ (0xFFFFFFFF : Int) < nh
      · simp only [pyInsert] at h2
        rw [if_neg hcl, if_pos hr] at h2
        simp at h2
      · by_cases hp : net.length ≠ t.width ∨ 8 * t.width < len
        · simp only [pyInsert] at h2
          rw [if_neg hcl, if_neg hr, if_pos hp] at h2
          simp at h2
        · simp only [pyInsert] at h2
          rw [if_neg hcl, if_neg hr, if_neg hp] at h2
          cases h2
          rcases upsert_mem (maskBytes net len) len nh.toNat t.entries e he
            with h | h
          · rw [h]
            exact maskBytes_idem net len
          · exact hcanon e h

/-- C8 witness: inserting 10.0.0.1/8 (host bits set) into a fresh
table. -/
theorem C8_insert_masks_host_bits_witness :
    pyInsert (PyTable.mk 4 "dir24" [] false) [10, 0, 0, 1] 8 100 =
      pyInsert (PyTable.mk 4 "dir24" [] false) (maskBytes [10, 0, 0, 1] 8)
        8 100 ∧
    (∀ t2, pyInsert (PyTable.mk 4 "dir24" [] false) [10, 0, 0, 1] 8 100 =
        Except.ok t2 →
      ∀ e ∈ t2.entries, maskBytes e.net e.len = e.net) :=
  C8_insert_masks_host_bits (PyTable.mk 4 "dir24" [] false) [10, 0, 0, 1] 8
    100 (by decide)

/-- C9: construction accepts exactly the valid algorithm tags of each
family (dir24/stride8 for IPv4, wide16/stride8 for IPv6), fails with
ValueError on any other tag (including a valid tag of the wrong
family), and a fresh table is open and empty. -/
theorem C9_construct_validates (algo : String) :
    ((algo = "dir24" ∨ algo = "stride8") →
      ∃ t, mkLpmTableIPv4 algo = Except.ok t ∧ t.numPrefixes = 0 ∧
        t.closed = false ∧ t.algorithm = algo ∧ t.width = 4) ∧
    (¬ (algo = "dir24" ∨ algo = "stride8") →
      mkLpmTableIPv4 algo = Except.error PyError.valueError) ∧
    ((algo = "wide16" ∨ algo = "stride8") →
      ∃ t, mkLpmTableIPv6 algo = Except.ok t ∧ t.numPrefixes = 0 ∧
        t.closed = false ∧ t.algorithm = algo ∧ t.width = 16) ∧
    (¬ (algo = "wide16" ∨ algo = "stride8") →
      mkLpmTableIPv6 algo = Except.error PyError.valueError) := by
  refine ⟨fun h => ?_, fun h => ?_, fun h => ?_, fun h => ?_⟩
  · exact ⟨PyTable.mk 4 algo [] false, by
      simp [mkLpmTableIPv4, h], rfl, rfl, rfl, rfl⟩
  · simp [mkLpmTableIPv4, h]
  · exact ⟨PyTable.mk 16 algo [] false, by
      simp [mkLpmTableIPv6, h], rfl, rfl, rfl, rfl⟩
  · simp [mkLpmTableIPv6, h]

/-- C9 witness: dir24 is accepted for IPv4 and yields an empty open
table; wide16 (an IPv6-only tag) is rejected for IPv4; dir24 is
rejected for IPv6. -/
theorem C9_construct_validates_witness :
    (∃ t, mkLpmTableIPv4 "dir24" = Except.ok t ∧ t.numPrefixes = 0 ∧
      t.closed = false ∧ t.algorithm = "dir24" ∧ t.width = 4) ∧
    mkLpmTableIPv4 "wide16" = Except.error PyError.valueError ∧
    mkLpmTableIPv6 "dir24" = Except.error PyError.valueError :=
  ⟨(C9_construct_validates "dir24").1 (Or.inl rfl),
   (C9_construct_validates "wide16").2.1 (by decide),
   (C9_construct_validates "dir24").2.2.2 (by decide)⟩

/-- C10: the interface surfaces the engine result unchanged except that
the sentinel becomes None: a lookup result is None exactly when the
engine reports INVALID_NEXT_HOP, a lookup never returns the integer
0xFFFFFFFF, an engine result equal to the sentinel (including one from
a stored sentinel next hop) is indistinguishable from a miss, and
batch results are surfaced the same way. -/
theorem C10_sentinel_never_surfaced (t : PyTable) (hopen : t.closed = false) :
    (∀ addr, pyLookup t addr =
      Except.ok (if engineLookup t.entries addr = INVALID_NEXT_HOP then none
        else some (engineLookup t.entries addr))) ∧
    (∀ addr v, pyLookup t addr = Except.ok (some v) →
      v ≠ INVALID_NEXT_HOP) ∧
    (∀ addr, engineLookup t.entries addr = INVALID_NEXT_HOP →
      pyLookup t addr = Except.ok none) ∧
    (∀ addrs, pyLookupBatch t addrs =
      Except.ok (addrs.map (fun a =>
        if engineLookup t.entries a = INVALID_NEXT_HOP then none
        else some (engineLookup t.entries a)))) := by
  have hs : ∀ r : Nat, surfaceNH r =
      if r = INVALID_NEXT_HOP then none else some r := by
    intro r
    by_cases h : r = INVALID_NEXT_HOP
    · simp [surfaceNH, h]
    · simp [surfaceNH, h]
  refine ⟨fun addr => ?_, fun addr v hv => ?_, fun addr h => ?_,
    fun addrs => ?_⟩
  · simp [pyLookup, hopen, hs]
  · by_cases h : engineLookup t.entries addr = INVALID_NEXT_HOP
    · simp [pyLookup, hopen, surfaceNH, h] at hv
    · simp [pyLookup, hopen, surfaceNH, h] at hv
      rw [← hv]
      exact h
  · simp [pyLookup, hopen, hs, h]
  · by_cases he : addrs = []
    · subst he
      simp [pyLookupBatch, hopen]
    · simp [pyLookupBatch, hopen, he, hs]

/-- C10 witness: with a stored sentinel next hop 0xFFFFFFFF on
10.0.0.0/8, looking up 10.1.2.3 is indistinguishable from a miss. -/
theorem C10_sentinel_never_surfaced_witness :
    pyLookup (PyTable.mk 4 "dir24" [Entry.mk [10, 0, 0, 0] 8 0xFFFFFFFF]
      false) [10, 1, 2, 3] = Except.ok none :=
  (C10_sentinel_never_surfaced
      (PyTable.mk 4 "dir24" [Entry.mk [10, 0, 0, 0] 8 0xFFFFFFFF] false)
      rfl).2.2.1 [10, 1, 2, 3] (by decide)

example : bitsMatch [192, 168, 0, 0] 16 [192, 168, 1, 1] = true := by decide
example : bitsMatch [192, 168, 1, 0] 24 [192, 168, 2, 1] = false := by decide
example : bitsMatch [192, 168, 1, 128] 25 [192, 168, 1, 129] = true := by decide
example :
    lookupT (build [⟨[192, 168, 1, 0], 24, 24⟩, ⟨[192, 168, 0, 0], 16, 16⟩])
      [192, 168, 1, 1] = some (24, 24) := by decide
example :
    lookupT (build [⟨[192, 168, 1, 0], 24, 24⟩, ⟨[192, 168, 0, 0], 16, 16⟩])
      [192, 168, 2, 1] = some (16, 16) := by decide
example :
    lookupT (build [⟨[192, 168, 1, 0], 24, 24⟩, ⟨[192, 168, 0, 0], 16, 16⟩])
      [10, 0, 0, 1] = none := by decide

end Liblpm
